import Mathlib

/-!
# Verification of the Connections Buddy state-management logic

A shallow embedding of `src/components/ConnectionsGame.tsx`: the tile-mark
map, the game-state handlers (tile click, edit save, shuffle, reset, color
swap, color clear, date pick), the puzzle loader with its date-keyed cache,
the NYT-document parser and the local-date / calendar-range helpers.
JavaScript `Record<number, Color[]>` objects are modelled as association
lists whose keys are kept in ascending order, matching the enumeration
order `Object.entries` uses for integer-like keys.
-/

namespace ConnectionsBuddy

/-- The five mark colors (`type Color` in the source). -/
inductive Color where
  | yellow
  | green
  | blue
  | purple
  | red
deriving DecidableEq, Repr, Fintype

/-- `Record<number, Color[]>`: tile index to the ordered list of marks,
as an association list with keys in ascending order (the order
`Object.entries` enumerates integer-like keys). -/
abbrev TileMarks := List (Nat × List Color)

/-- `prev[tileIndex] || []` — lookup in the record, empty list when absent. -/
def getMarks (m : TileMarks) (i : Nat) : List Color :=
  match m.find? (fun e => e.1 == i) with
  | some e => e.2
  | none => []

/-- `obj[i] = v` on a record whose keys are kept in ascending order:
replace the entry for key `i`, or insert it at its sorted position. -/
def setMark : TileMarks → Nat → List Color → TileMarks
  | [], i, v => [(i, v)]
  | (k, w) :: rest, i, v =>
    if i < k then (i, v) :: (k, w) :: rest
    else if i = k then (i, v) :: rest
    else (k, w) :: setMark rest i v

/-- `const { [tileIndex]: _, ...rest } = prev` — drop the entry for key `i`
(keys of a record are unique, so dropping every entry with that key). -/
def eraseMark (m : TileMarks) (i : Nat) : TileMarks :=
  m.filter (fun e => e.1 != i)

/-- UI load-mode pill: `'today' | 'date' | 'custom'`. -/
inductive Pill where
  | today
  | date
  | custom
deriving DecidableEq, Repr

/-- The component's mutable state: the `useState` cells of
`ConnectionsGame` that the handlers under verification read or write. -/
structure GameState where
  originalWords : List String
  words : List String
  tileMarks : TileMarks
  activeColor : Color
  editText : String
  selectedPill : Pill
  selectedDate : String
  puzzleDate : String
  isEditing : Bool
  isLoading : Bool
deriving DecidableEq, Repr

/-- `handleTileClick(tileIndex)`: toggle the active color on one tile. -/
def handleTileClick (s : GameState) (tileIndex : Nat) : GameState :=
  let currentMarks := getMarks s.tileMarks tileIndex
  if s.activeColor ∈ currentMarks then
    let newMarks := currentMarks.filter (fun color => color ≠ s.activeColor)
    if newMarks = [] then
      { s with tileMarks := eraseMark s.tileMarks tileIndex }
    else
      { s with tileMarks := setMark s.tileMarks tileIndex newMarks }
  else
    { s with tileMarks := setMark s.tileMarks tileIndex (currentMarks ++ [s.activeColor]) }

/-- The color substitution of `handleColorSwap`'s `map` callback:
`fromColor ↦ toColor`, `toColor ↦ fromColor`, all else unchanged. -/
def swapColor (fromColor toColor c : Color) : Color :=
  if c = fromColor then toColor
  else if c = toColor then fromColor
  else c

/-- `handleColorSwap(fromColor, toColor)`: swap two colors in every tile's
mark list (rebuilding the record entry by entry) and in the active color;
no-op when the two colors coincide. -/
def handleColorSwap (s : GameState) (fromColor toColor : Color) : GameState :=
  if fromColor = toColor then s
  else
    { s with
      tileMarks := s.tileMarks.map (fun e => (e.1, e.2.map (swapColor fromColor toColor)))
      activeColor :=
        if s.activeColor = fromColor then toColor
        else if s.activeColor = toColor then fromColor
        else s.activeColor }

/-- `handleColorClear(colorToClear)`: drop one color from every tile's mark
list, keeping an entry only when colors remain. -/
def handleColorClear (s : GameState) (colorToClear : Color) : GameState :=
  { s with
    tileMarks := s.tileMarks.filterMap
      (fun e =>
        let newColors := e.2.filter (fun color => color ≠ colorToClear)
        if newColors.length > 0 then some (e.1, newColors) else none) }

/-- `handleReset`: clear marks, reset the active color, restore the
original word order. -/
def handleReset (s : GameState) : GameState :=
  { s with tileMarks := [], activeColor := Color.yellow, words := s.originalWords }

/-- Worker for `splitWsRuns`: walk the characters, collecting the current
token (reversed) and remembering whether we are inside a separator run. -/
def splitWsRunsGo : List Char → List Char → Bool → List (List Char)
  | [], tok, _ => [tok.reverse]
  | c :: cs, tok, inSep =>
    if c.isWhitespace then
      if inSep then splitWsRunsGo cs [] true
      else tok.reverse :: splitWsRunsGo cs [] true
    else splitWsRunsGo cs (c :: tok) false

/-- JavaScript `text.split(/[\s\n]+/)`: split on maximal runs of
whitespace; a leading or trailing run contributes an empty token, interior
runs never do. -/
def splitWsRuns (s : String) : List String :=
  (splitWsRunsGo s.data [] false).map (fun cs => String.mk cs)

/-- JavaScript `word.toUpperCase()`, character by character (the words
handled here are ASCII). -/
def jsToUpper (s : String) : String := String.mk (s.data.map Char.toUpper)

/-- JavaScript `word.trim()`: strip whitespace from both ends. -/
def jsTrim (s : String) : String :=
  String.mk (((s.data.dropWhile Char.isWhitespace).reverse.dropWhile
    Char.isWhitespace).reverse)

/-- The word-list parser of `handleEditSave`: split on whitespace, trim and
upper-case each token, drop empties, keep the first 16. -/
def parseEditText (t : String) : List String :=
  (((splitWsRuns t).map (fun word => jsToUpper (jsTrim word))).filter
    (fun word => word.length > 0)).take 16

/-- `handleEditSave`: replace both word orders with the parsed manual
entry, clear the marks and detach the puzzle date. -/
def handleEditSave (s : GameState) : GameState :=
  let newWords := parseEditText s.editText
  { s with
    originalWords := newWords
    words := newWords
    tileMarks := []
    puzzleDate := ""
    isEditing := false }

/-- `[a[i], a[j]] = [a[j], a[i]]` — exchange two positions of a list
(unchanged when either index is out of range). -/
def listSwap (l : List String) (i j : Nat) : List String :=
  match l[i]?, l[j]? with
  | some x, some y => (l.set i y).set j x
  | _, _ => l

/-- The Fisher–Yates loop of `handleShuffle`, counting `i` down to 1;
`rnd i` models `Math.floor(Math.random() * (i + 1))` at loop index `i`. -/
def fyGo (rnd : Nat → Nat) : Nat → List String → List String
  | 0, l => l
  | i + 1, l => fyGo rnd i (listSwap l (i + 1) (rnd (i + 1)))

/-- The full shuffle of `handleShuffle`: Fisher–Yates over a copy of the
original word order. -/
def fisherYates (ws : List String) (rnd : Nat → Nat) : List String :=
  fyGo rnd (ws.length - 1) ws

/-- One iteration of `handleShuffle`'s mark-remapping loop: find the old
word at the entry's display index (`undefined` when out of range), locate
it in the shuffled order with `indexOf` (skipping on `-1`), and write the
entry's colors at the new index. -/
def remapStep (oldWords newWords : List String) (acc : TileMarks)
    (e : Nat × List Color) : TileMarks :=
  match oldWords[e.1]? with
  | some oldWord =>
    if oldWord ∈ newWords then setMark acc (newWords.indexOf oldWord) e.2
    else acc
  | none => acc

/-- The mark-remapping loop of `handleShuffle` over all old entries, in
ascending key order. -/
def shuffleRemap (oldWords newWords : List String) (m : TileMarks) : TileMarks :=
  m.foldl (remapStep oldWords newWords) []

/-- `handleShuffle`: shuffle the original order and remap the marks from
the current display order to the shuffled one by word identity. -/
def handleShuffle (s : GameState) (rnd : Nat → Nat) : GameState :=
  let shuffledWords := fisherYates s.originalWords rnd
  { s with
    words := shuffledWords
    tileMarks := shuffleRemap s.words shuffledWords s.tileMarks }

/-- One `{content, position}` card of the remote document. -/
structure NYTCard where
  content : String
  position : Nat
deriving DecidableEq, Repr

/-- One named category of the remote document. -/
structure NYTCategory where
  title : String
  cards : List NYTCard
deriving DecidableEq, Repr

/-- The remote puzzle document (`NYTConnectionsData`). -/
structure NYTConnectionsData where
  status : String
  id : Nat
  print_date : String
  editor : String
  categories : List NYTCategory
deriving DecidableEq, Repr

/-- The comparator `(a, b) => a.position - b.position`: ascending
position order. -/
def cardLE (a b : NYTCard) : Prop := a.position ≤ b.position

instance : DecidableRel cardLE := fun a b => Nat.decLe a.position b.position

instance : IsTotal NYTCard cardLE := ⟨fun a b => Nat.le_total a.position b.position⟩

instance : IsTrans NYTCard cardLE := ⟨fun _ _ _ => Nat.le_trans⟩

/-- The flattening loop of `parseNYTData`: push every category's cards
into one list, in document order. -/
def flatCards (data : NYTConnectionsData) : List NYTCard :=
  data.categories.foldl (fun acc category => acc ++ category.cards) []

/-- `parseNYTData`: flatten every category's cards, sort by position
ascending (JavaScript `sort` is stable, modelled by the stable insertion
sort), and upper-case each content. -/
def parseNYTData (data : NYTConnectionsData) : List String :=
  ((flatCards data).insertionSort cardLE).map (fun card => jsToUpper card.content)

/-- One entry of the word-list cache (`CachedPuzzle`). -/
structure CachedPuzzle where
  date : String
  words : List String
  fetchedAt : String
deriving DecidableEq, Repr

/-- `PuzzleCache`: the date-keyed word-list cache, as an association list
(JavaScript object keyed by date strings). -/
abbrev PuzzleCache := List (String × CachedPuzzle)

/-- `cache[date]` lookup. -/
def cacheLookup (cache : PuzzleCache) (date : String) : Option CachedPuzzle :=
  (cache.find? (fun e => e.1 == date)).map (fun e => e.2)

/-- `cache[date] = entry`: replace an existing entry for the date or
append a new one. -/
def cacheInsert (cache : PuzzleCache) (date : String) (p : CachedPuzzle) : PuzzleCache :=
  if (cache.find? (fun e => e.1 == date)).isSome then
    cache.map (fun e => if e.1 == date then (date, p) else e)
  else cache ++ [(date, p)]

/-- `getCachedPuzzle`: the cached word list for a date, when present. -/
def getCachedPuzzle (cache : PuzzleCache) (date : String) : Option (List String) :=
  match cacheLookup cache date with
  | some puzzle => some puzzle.words
  | none => none

/-- `cachePuzzle`: store a fetched word list under its date, stamping the
current time. -/
def cachePuzzle (cache : PuzzleCache) (date : String) (words : List String)
    (now : String) : PuzzleCache :=
  cacheInsert cache date { date := date, words := words, fetchedAt := now }

/-- Outcome of the single network request a load issues: a parsed document
on success, or a failure (non-ok response or a body that does not parse). -/
inductive FetchOutcome where
  | ok (data : NYTConnectionsData)
  | fail (msg : String)

/-- `fetchPuzzleByDate`: serve from the cache when possible; otherwise
issue one request, parse, cache and return. Returns the result, the cache
afterwards, and how many network requests were issued (0 or 1). -/
def fetchPuzzleByDate (cache : PuzzleCache) (puzzleDate : String)
    (net : FetchOutcome) (now : String) :
    Except String (List String) × PuzzleCache × Nat :=
  match getCachedPuzzle cache puzzleDate with
  | some cachedWords => (Except.ok cachedWords, cache, 0)
  | none =>
    match net with
    | FetchOutcome.ok data =>
      let words := parseNYTData data
      (Except.ok words, cachePuzzle cache puzzleDate words now, 1)
    | FetchOutcome.fail msg => (Except.error msg, cache, 1)

/-- One entry of the per-puzzle progress cache (`PuzzleState`). -/
structure PuzzleState where
  tileMarks : TileMarks
  activeColor : Color
  lastUpdated : String
deriving DecidableEq, Repr

/-- `PuzzleStateCache`: per-date saved progress. -/
abbrev PuzzleStateCache := List (String × PuzzleState)

/-- `loadPuzzleState`: the saved progress for a date, when present. -/
def loadPuzzleState (psc : PuzzleStateCache) (puzzleDate : String) : Option PuzzleState :=
  (psc.find? (fun e => e.1 == puzzleDate)).map (fun e => e.2)

/-- `handleDatePick(date?)`: load the puzzle for a chosen date. On success
the word orders, marks (restored from saved progress, else empty), active
color, edit text and puzzle date are replaced and the updated cache
returned; on failure only the pill reverts to custom. -/
def handleDatePick (s : GameState) (cache : PuzzleCache) (psc : PuzzleStateCache)
    (date : Option String) (today : String) (net : FetchOutcome) (now : String) :
    GameState × PuzzleCache :=
  let dateToUse := match date with
    | some d => if d ≠ "" then d else s.selectedDate
    | none => s.selectedDate
  if dateToUse = "" then (s, cache)
  else
    let pill := if dateToUse = today then Pill.today else Pill.date
    match fetchPuzzleByDate cache dateToUse net now with
    | (Except.ok dateWords, cache2, _) =>
      let saved := loadPuzzleState psc dateToUse
      ({ s with
          selectedPill := pill
          originalWords := dateWords
          words := dateWords
          tileMarks := match saved with | some p => p.tileMarks | none => []
          activeColor := match saved with | some p => p.activeColor | none => Color.yellow
          editText := String.intercalate " " dateWords
          puzzleDate := dateToUse
          isLoading := false }, cache2)
    | (Except.error _, cache2, _) =>
      ({ s with selectedPill := Pill.custom, isLoading := false }, cache2)

/-- `handleLoadTodaysPuzzle`: load the puzzle for today (the
argument-less `fetchPuzzleByDate()` call defaults to today). -/
def handleLoadTodaysPuzzle (s : GameState) (cache : PuzzleCache)
    (psc : PuzzleStateCache) (today : String) (net : FetchOutcome) (now : String) :
    GameState × PuzzleCache :=
  let s1 := { s with selectedPill := Pill.today, selectedDate := today }
  match fetchPuzzleByDate cache today net now with
  | (Except.ok todaysWords, cache2, _) =>
    let saved := loadPuzzleState psc today
    ({ s1 with
        originalWords := todaysWords
        words := todaysWords
        tileMarks := match saved with | some p => p.tileMarks | none => []
        activeColor := match saved with | some p => p.activeColor | none => Color.yellow
        editText := String.intercalate " " todaysWords
        puzzleDate := today
        isLoading := false }, cache2)
  | (Except.error _, cache2, _) =>
    ({ s1 with selectedPill := Pill.custom, isLoading := false }, cache2)

/-- JavaScript string `<`: lexicographic comparison of the code units. -/
def lexLtChars : List Char → List Char → Bool
  | [], [] => false
  | [], _ :: _ => true
  | _ :: _, [] => false
  | a :: as, b :: bs => if a < b then true else if b < a then false else lexLtChars as bs

/-- JavaScript `s < t` on strings. -/
def strLt (s t : String) : Bool := lexLtChars s.data t.data

/-- JavaScript `s > t` on strings. -/
def strGt (s t : String) : Bool := strLt t s

/-- Worker for `natToChars`, structurally recursive on a fuel bound that
always suffices (one digit is consumed per step). -/
def natToCharsAux : Nat → Nat → List Char
  | 0, _ => []
  | fuel + 1, n =>
    if n < 10 then [Nat.digitChar n]
    else natToCharsAux fuel (n / 10) ++ [Nat.digitChar (n % 10)]

/-- JavaScript `String(n)` for a natural number: decimal digits. -/
def natToChars (n : Nat) : List Char := natToCharsAux (n + 1) n

/-- JavaScript `String(n)` as a string. -/
def numToStr (n : Nat) : String := String.mk (natToChars n)

/-- JavaScript `s.padStart(2, '0')`. -/
def padStart2 (s : String) : String :=
  if s.length < 2 then String.mk (List.replicate (2 - s.length) '0') ++ s else s

/-- A JavaScript `Date` instant, reduced to the calendar components the
code reads: the local-timezone components (`getFullYear`, `getMonth`
0-based, `getDate`) and the UTC components (what `toISOString` would
serialize), which may differ from the local ones near midnight. -/
structure JsDate where
  localYear : Nat
  localMonth : Nat
  localDay : Nat
  utcYear : Nat
  utcMonth : Nat
  utcDay : Nat
deriving DecidableEq, Repr

/-- `getLocalDateString`: `YYYY-MM-DD` from the local calendar components
(`getFullYear`, `getMonth() + 1`, `getDate`, the parts zero-padded). -/
def getLocalDateString (d : JsDate) : String :=
  numToStr d.localYear ++ "-" ++ padStart2 (numToStr (d.localMonth + 1)) ++ "-" ++
    padStart2 (numToStr d.localDay)

/-- `getTodayInUserTimezone`. -/
def getTodayInUserTimezone (now : JsDate) : String := getLocalDateString now

/-- `getMaxAllowedDate`: conservatively, exactly today. -/
def getMaxAllowedDate (now : JsDate) : String := getLocalDateString now

/-- The fixed earliest selectable date of the calendar. -/
def minAllowedDate : String := "2023-06-12"

/-- The calendar's `disabled` callback: a candidate date is rejected when
its local date string is after today or before the fixed minimum. -/
def calendarDisabled (now : JsDate) (date : JsDate) : Bool :=
  strGt (getLocalDateString date) (getMaxAllowedDate now) ||
    strLt (getLocalDateString date) minAllowedDate

/-- Chronological strict order on the local calendar components. -/
def chronLt (a b : JsDate) : Prop :=
  a.localYear < b.localYear ∨
    (a.localYear = b.localYear ∧
      (a.localMonth < b.localMonth ∨
        (a.localMonth = b.localMonth ∧ a.localDay < b.localDay)))

/-- In-range calendar components: a four-digit year, a 0-based month and a
day of month. -/
def validDate (d : JsDate) : Prop :=
  1000 ≤ d.localYear ∧ d.localYear ≤ 9999 ∧ d.localMonth ≤ 11 ∧
    1 ≤ d.localDay ∧ d.localDay ≤ 31

/-- The local date components of the minimum allowed date. -/
def minAllowedJsDate : JsDate :=
  { localYear := 2023, localMonth := 5, localDay := 12
    utcYear := 2023, utcMonth := 5, utcDay := 12 }

/-- A concrete game state used to exercise the theorems on explicit
inputs. -/
def baseState : GameState :=
  { originalWords := ["BASS", "SOLE"]
    words := ["BASS", "SOLE"]
    tileMarks := []
    activeColor := Color.yellow
    editText := ""
    selectedPill := Pill.custom
    selectedDate := ""
    puzzleDate := ""
    isEditing := false
    isLoading := false }

/-- A state with tile 0 marked yellow-then-green and yellow active. -/
def sC3 : GameState :=
  { baseState with tileMarks := [(0, [Color.yellow, Color.green])] }

/-- A state with tile 0 marked yellow, used to exercise the shuffle. -/
def sC1 : GameState :=
  { baseState with tileMarks := [(0, [Color.yellow])] }

/-- The spec's tile-mark-record invariant: every stored entry carries a
non-empty color list, and (beyond the spec) no color repeats in a list. -/
def MarksInv (m : TileMarks) : Prop :=
  ∀ e ∈ m, e.2 ≠ [] ∧ e.2.Nodup

/-- The invariant extended to the per-puzzle progress cache. -/
def PSCacheInv (psc : PuzzleStateCache) : Prop :=
  ∀ e ∈ psc, MarksInv e.2.tileMarks

/-- The spec's example document: one category whose cards are
`{content: "cat", position: 2}` and `{content: "dog", position: 0}`. -/
def sampleNYTData : NYTConnectionsData :=
  { status := "OK"
    id := 0
    print_date := "2024-01-10"
    editor := ""
    categories :=
      [{ title := ""
         cards := [{ content := "cat", position := 2 },
                   { content := "dog", position := 0 }] }] }

/-- A progress-cache with saved marks for 2024-01-10. -/
def savedProgress : PuzzleStateCache :=
  [("2024-01-10", { tileMarks := [(0, [Color.yellow])], activeColor := Color.green,
                    lastUpdated := "" })]

/-- A word-list cache holding an entry for 2024-01-10. -/
def cacheWithEntry : PuzzleCache :=
  [("2024-01-10", { date := "2024-01-10", words := ["APPLE"], fetchedAt := "" })]

/-! ## Lemmas about the tile-mark record operations -/

theorem getMarks_nil (i : Nat) : getMarks [] i = [] := rfl

theorem getMarks_cons_self (k : Nat) (w : List Color) (m : TileMarks) :
    getMarks ((k, w) :: m) k = w := by
  simp [getMarks]

theorem getMarks_cons_ne (k j : Nat) (w : List Color) (m : TileMarks) (h : j ≠ k) :
    getMarks ((k, w) :: m) j = getMarks m j := by
  simp only [getMarks, List.find?]
  have : (k == j) = false := by simpa using fun hkj => h hkj.symm
  rw [this]

theorem getMarks_setMark_self (m : TileMarks) (i : Nat) (v : List Color) :
    getMarks (setMark m i v) i = v := by
  induction m with
  | nil => simp [getMarks, setMark]
  | cons e rest ih =>
    obtain ⟨k, w⟩ := e
    simp only [setMark]
    split_ifs with h1 h2
    · exact getMarks_cons_self i v _
    · exact getMarks_cons_self i v _
    · have hik : i ≠ k := by omega
      rw [getMarks_cons_ne k i w _ hik]
      exact ih

theorem getMarks_setMark_ne (m : TileMarks) (i j : Nat) (v : List Color) (h : j ≠ i) :
    getMarks (setMark m i v) j = getMarks m j := by
  induction m with
  | nil =>
    simp only [setMark]
    rw [getMarks_cons_ne i j v [] h]
  | cons e rest ih =>
    obtain ⟨k, w⟩ := e
    simp only [setMark]
    split_ifs with h1 h2
    · rw [getMarks_cons_ne i j v _ h]
    · subst h2
      rw [getMarks_cons_ne i j v _ h, getMarks_cons_ne i j w _ h]
    · by_cases hjk : j = k
      · subst hjk
        rw [getMarks_cons_self, getMarks_cons_self]
      · rw [getMarks_cons_ne k j w _ hjk, getMarks_cons_ne k j w _ hjk]
        exact ih

theorem getMarks_eraseMark_self (m : TileMarks) (i : Nat) :
    getMarks (eraseMark m i) i = [] := by
  induction m with
  | nil => rfl
  | cons e rest ih =>
    obtain ⟨k, w⟩ := e
    by_cases hk : k = i
    · subst hk
      have h2 : eraseMark ((k, w) :: rest) k = eraseMark rest k := by
        simp [eraseMark]
      rw [h2]
      exact ih
    · have h2 : eraseMark ((k, w) :: rest) i = (k, w) :: eraseMark rest i := by
        simp [eraseMark, hk]
      rw [h2, getMarks_cons_ne k i w _ (fun h => hk h.symm)]
      exact ih

theorem mem_setMark (m : TileMarks) (i : Nat) (v : List Color) (e : Nat × List Color)
    (h : e ∈ setMark m i v) : e = (i, v) ∨ e ∈ m := by
  induction m with
  | nil =>
    simp only [setMark, List.mem_singleton] at h
    exact Or.inl h
  | cons f rest ih =>
    obtain ⟨k, w⟩ := f
    simp only [setMark] at h
    split_ifs at h with h1 h2
    · simp only [List.mem_cons] at h
      rcases h with h | h | h
      · exact Or.inl h
      · exact Or.inr (List.mem_cons.2 (Or.inl h))
      · exact Or.inr (List.mem_cons.2 (Or.inr h))
    · simp only [List.mem_cons] at h
      rcases h with h | h
      · exact Or.inl h
      · exact Or.inr (List.mem_cons.2 (Or.inr h))
    · simp only [List.mem_cons] at h
      rcases h with h | h
      · exact Or.inr (List.mem_cons.2 (Or.inl h))
      · rcases ih h with h3 | h3
        · exact Or.inl h3
        · exact Or.inr (List.mem_cons.2 (Or.inr h3))

/-! ## Claim C3: toggling the same tile and color twice -/

/-- `currentMarks.filter(color => color !== activeColor)` leaves a list the
color is no longer in. -/
theorem not_mem_filter_ne (l : List Color) (a : Color) :
    a ∉ l.filter (fun color => color ≠ a) := by
  simp [List.mem_filter]

theorem filter_ne_of_not_mem (l : List Color) (a : Color) (h : a ∉ l) :
    l.filter (fun color => color ≠ a) = l := by
  apply List.filter_eq_self.2
  intro b hb
  simp only [ne_eq, decide_eq_true_eq]
  exact fun hba => h (hba ▸ hb)

/-- A mark list whose `filter (· ≠ a)` is empty, that contains `a` at most
once and does contain it, is exactly `[a]`. -/
theorem eq_singleton_of_filter_ne_nil (ms : List Color) (a : Color)
    (hmem : a ∈ ms) (hcount : ms.count a ≤ 1)
    (hnil : ms.filter (fun color => color ≠ a) = []) : ms = [a] := by
  have hall : ∀ x ∈ ms, x = a := by
    intro x hx
    by_contra hxa
    have hxf : x ∈ ms.filter (fun color => color ≠ a) :=
      List.mem_filter.2 ⟨hx, by simpa using hxa⟩
    rw [hnil] at hxf
    exact absurd hxf (List.not_mem_nil x)
  have hrep := List.eq_replicate_of_mem hall
  have hcount2 : ms.count a = ms.length := by
    conv_lhs => rw [hrep]
    simp [List.count_replicate]
  have hpos : 0 < ms.length := List.length_pos.2 (List.ne_nil_of_mem hmem)
  have hlen : ms.length = 1 := by omega
  rw [hrep, hlen]
  rfl

/-- The tile clicked keeps its active color after a click. -/
theorem handleTileClick_activeColor (s : GameState) (i : Nat) :
    (handleTileClick s i).activeColor = s.activeColor := by
  simp only [handleTileClick]
  split_ifs <;> rfl

/-- What one click does to the clicked tile's mark list: filter the active
color out when present (the record entry being dropped when that empties
the list changes nothing the lookup can see), append it when absent. -/
theorem handleTileClick_marks (s : GameState) (i : Nat) :
    getMarks (handleTileClick s i).tileMarks i =
      if s.activeColor ∈ getMarks s.tileMarks i then
        (getMarks s.tileMarks i).filter (fun color => color ≠ s.activeColor)
      else getMarks s.tileMarks i ++ [s.activeColor] := by
  simp only [handleTileClick]
  by_cases ha : s.activeColor ∈ getMarks s.tileMarks i
  · simp only [ha, if_true]
    by_cases hnil :
        (getMarks s.tileMarks i).filter (fun color => color ≠ s.activeColor) = []
    · simp only [hnil, if_true]
      simpa using getMarks_eraseMark_self s.tileMarks i
    · simp only [hnil, if_false]
      simpa using getMarks_setMark_self s.tileMarks i _
  · simp only [ha, if_false]
    simpa using getMarks_setMark_self s.tileMarks i _

/-- C3, amended: when the active color occurs at most once on the tile
(the invariant the code maintains), toggling it twice returns the tile's
mark list to a permutation of the original — exactly the original whenever
the active color was not already present. -/
theorem c3_toggle_twice_amended (s : GameState) (i : Nat)
    (hcount : (getMarks s.tileMarks i).count s.activeColor ≤ 1) :
    ((getMarks (handleTileClick (handleTileClick s i) i).tileMarks i).Perm
      (getMarks s.tileMarks i)) ∧
    (s.activeColor ∉ getMarks s.tileMarks i →
      getMarks (handleTileClick (handleTileClick s i) i).tileMarks i =
        getMarks s.tileMarks i) := by
  have hac : (handleTileClick s i).activeColor = s.activeColor :=
    handleTileClick_activeColor s i
  have h1 := handleTileClick_marks s i
  have h2 := handleTileClick_marks (handleTileClick s i) i
  rw [hac, h1] at h2
  by_cases ha : s.activeColor ∈ getMarks s.tileMarks i
  · rw [if_pos ha] at h2
    rw [if_neg (not_mem_filter_ne _ _)] at h2
    constructor
    · rw [h2, List.perm_iff_count]
      intro b
      by_cases hb : b = s.activeColor
      · subst hb
        have hc1 : List.count s.activeColor (getMarks s.tileMarks i) = 1 := by
          have hpos := List.count_pos_iff.2 ha
          omega
        rw [List.count_append, hc1,
          List.count_eq_zero_of_not_mem (not_mem_filter_ne _ _),
          List.count_singleton_self]
      · rw [List.count_append]
        have hfb : List.count b
            ((getMarks s.tileMarks i).filter (fun color => color ≠ s.activeColor)) =
            List.count b (getMarks s.tileMarks i) := by
          apply List.count_filter
          simpa using hb
        rw [hfb, List.count_singleton]
        have hab : (s.activeColor == b) = false := by
          simpa using fun h => hb h.symm
        rw [hab]
        simp
    · intro hnot
      exact absurd ha hnot
  · rw [if_neg ha] at h2
    have hmem : s.activeColor ∈ getMarks s.tileMarks i ++ [s.activeColor] := by
      simp
    rw [if_pos hmem, List.filter_append, filter_ne_of_not_mem _ _ ha] at h2
    simp only [List.filter_cons, List.filter_nil] at h2
    rw [if_neg (by simp)] at h2
    rw [List.append_nil] at h2
    exact ⟨h2 ▸ List.Perm.refl _, fun _ => h2⟩

/-- C3 fails as stated: with marks `[yellow, green]` and yellow active,
toggling yellow twice yields `[green, yellow]`, not the original ordered
list — removal filters the color out of the middle and re-adding appends
at the end. -/
theorem c3_toggle_twice_counterexample :
    getMarks sC3.tileMarks 0 = [Color.yellow, Color.green] ∧
    getMarks (handleTileClick (handleTileClick sC3 0) 0).tileMarks 0 =
      [Color.green, Color.yellow] ∧
    getMarks (handleTileClick (handleTileClick sC3 0) 0).tileMarks 0 ≠
      getMarks sC3.tileMarks 0 := by
  refine ⟨rfl, rfl, ?_⟩
  decide

/-- Witness for the amended C3 at a concrete input. -/
theorem c3_toggle_twice_amended_witness :
    List.count sC3.activeColor (getMarks sC3.tileMarks 0) ≤ 1 ∧
    ((getMarks (handleTileClick (handleTileClick sC3 0) 0).tileMarks 0).Perm
      (getMarks sC3.tileMarks 0)) :=
  ⟨by decide, (c3_toggle_twice_amended sC3 0 (by decide)).1⟩

/-! ## Claim C4: swapping two colors twice -/

theorem swapColor_swapColor : ∀ a b c : Color, swapColor a b (swapColor a b c) = c := by
  decide

theorem map_swapColor_swapColor (l : List Color) (a b : Color) :
    (l.map (swapColor a b)).map (swapColor a b) = l := by
  rw [List.map_map]
  have hcomp : swapColor a b ∘ swapColor a b = id := by
    funext c
    exact swapColor_swapColor a b c
  rw [hcomp, List.map_id]

theorem tileMarks_swap_swap (m : TileMarks) (a b : Color) :
    (m.map (fun e => (e.1, e.2.map (swapColor a b)))).map
      (fun e => (e.1, e.2.map (swapColor a b))) = m := by
  induction m with
  | nil => rfl
  | cons e rest ih =>
    simp only [List.map_cons, ih, map_swapColor_swapColor]

theorem getMarks_map_colors (m : TileMarks) (g : Color → Color) (i : Nat) :
    getMarks (m.map (fun e => (e.1, e.2.map g))) i = (getMarks m i).map g := by
  induction m with
  | nil => rfl
  | cons e rest ih =>
    obtain ⟨k, w⟩ := e
    by_cases hik : i = k
    · subst hik
      rw [List.map_cons]
      rw [getMarks_cons_self, getMarks_cons_self]
    · rw [List.map_cons]
      rw [getMarks_cons_ne k i _ _ hik, getMarks_cons_ne k i _ _ hik]
      exact ih

/-- Single application of the swap, on the active color. -/
theorem handleColorSwap_activeColor (s : GameState) (a b : Color) :
    (handleColorSwap s a b).activeColor = swapColor a b s.activeColor := by
  by_cases hab : a = b
  · subst hab
    simp only [handleColorSwap, if_pos rfl, swapColor]
    by_cases h : s.activeColor = a <;> simp [h]
  · simp only [handleColorSwap, if_neg hab]
    rfl

/-- Single application of the swap, on each tile's mark list. -/
theorem handleColorSwap_marks (s : GameState) (a b : Color) (i : Nat) :
    getMarks (handleColorSwap s a b).tileMarks i =
      (getMarks s.tileMarks i).map (swapColor a b) := by
  by_cases hab : a = b
  · subst hab
    have hid : swapColor a a = id := by
      funext c
      simp only [swapColor, id]
      by_cases h : c = a <;> simp [h]
    rw [hid, List.map_id]
    simp [handleColorSwap]
  · simp only [handleColorSwap, if_neg hab]
    exact getMarks_map_colors s.tileMarks (swapColor a b) i

/-- C4: one swap of colors A and B replaces every occurrence of A by B
and of B by A in every tile's mark list and swaps the active color when it
is one of the two, and applying the same swap twice is the identity on the
whole state. -/
theorem c4_swap_colors (s : GameState) (a b : Color) :
    handleColorSwap (handleColorSwap s a b) a b = s ∧
    (∀ i, getMarks (handleColorSwap s a b).tileMarks i =
      (getMarks s.tileMarks i).map (swapColor a b)) ∧
    (handleColorSwap s a b).activeColor = swapColor a b s.activeColor := by
  refine ⟨?_, fun i => handleColorSwap_marks s a b i, handleColorSwap_activeColor s a b⟩
  by_cases hab : a = b
  · subst hab
    simp [handleColorSwap]
  · obtain ⟨ow, w, tm, ac, et, sp, sd, pd, ie, il⟩ := s
    simp only [handleColorSwap, if_neg hab, GameState.mk.injEq]
    and_intros <;>
      first
        | trivial
        | exact tileMarks_swap_swap tm a b
        | exact swapColor_swapColor a b ac

/-! ## Claim C10: the tile-mark invariant is preserved by every mutation -/

theorem marksInv_nil : MarksInv [] := by
  intro e he
  exact absurd he (List.not_mem_nil e)

theorem marksInv_getMarks (m : TileMarks) (hm : MarksInv m) (i : Nat) :
    (getMarks m i).Nodup := by
  unfold getMarks
  cases hfind : m.find? (fun e => e.1 == i) with
  | none => simp
  | some e => exact (hm e (List.mem_of_find?_eq_some hfind)).2

theorem marksInv_handleTileClick (s : GameState) (i : Nat) (hm : MarksInv s.tileMarks) :
    MarksInv (handleTileClick s i).tileMarks := by
  simp only [handleTileClick]
  by_cases ha : s.activeColor ∈ getMarks s.tileMarks i
  · simp only [ha, if_true]
    by_cases hnil :
        (getMarks s.tileMarks i).filter (fun color => color ≠ s.activeColor) = []
    · simp only [hnil, if_true]
      intro e he
      exact hm e (List.mem_of_mem_filter he)
    · simp only [hnil, if_false]
      intro e he
      rcases mem_setMark _ _ _ _ he with h | h
      · subst h
        exact ⟨hnil, List.Nodup.filter _ (marksInv_getMarks _ hm i)⟩
      · exact hm e h
  · simp only [ha, if_false]
    intro e he
    rcases mem_setMark _ _ _ _ he with h | h
    · subst h
      refine ⟨by simp, ?_⟩
      apply List.Nodup.append (marksInv_getMarks _ hm i) (List.nodup_singleton _)
      intro x hx1 hx2
      rw [List.mem_singleton] at hx2
      subst hx2
      exact ha hx1
    · exact hm e h

theorem swapColor_injective (a b : Color) : Function.Injective (swapColor a b) := by
  intro x y h
  have h2 := congrArg (swapColor a b) h
  rwa [swapColor_swapColor, swapColor_swapColor] at h2

theorem marksInv_handleColorSwap (s : GameState) (a b : Color)
    (hm : MarksInv s.tileMarks) : MarksInv (handleColorSwap s a b).tileMarks := by
  simp only [handleColorSwap]
  by_cases hab : a = b
  · simpa [hab] using hm
  · simp only [if_neg hab]
    intro e he
    simp only [List.mem_map] at he
    obtain ⟨f, hf, rfl⟩ := he
    rcases hm f hf with ⟨hne, hnd⟩
    refine ⟨?_, hnd.map (swapColor_injective a b)⟩
    simpa using hne

theorem marksInv_handleColorClear (s : GameState) (c : Color)
    (hm : MarksInv s.tileMarks) : MarksInv (handleColorClear s c).tileMarks := by
  simp only [handleColorClear]
  intro e he
  simp only [List.mem_filterMap] at he
  obtain ⟨f, hf, hfe⟩ := he
  rcases hm f hf with ⟨-, hnd⟩
  by_cases hpos : (f.2.filter (fun color => color ≠ c)).length > 0
  · rw [if_pos hpos] at hfe
    cases hfe
    constructor
    · intro hnil
      have hnil2 : f.2.filter (fun color => color ≠ c) = [] := hnil
      rw [hnil2] at hpos
      simp at hpos
    · exact List.Nodup.filter _ hnd
  · rw [if_neg hpos] at hfe
    cases hfe

theorem marksInv_remapFold (ow nw : List String) (m : TileMarks) :
    ∀ acc : TileMarks, MarksInv m → MarksInv acc →
      MarksInv (m.foldl (remapStep ow nw) acc) := by
  induction m with
  | nil =>
    intro acc _ ha
    simpa using ha
  | cons e m ih =>
    intro acc hm ha
    rw [List.foldl_cons]
    apply ih _ (fun f hf => hm f (List.mem_cons_of_mem e hf))
    unfold remapStep
    cases how : ow[e.1]? with
    | none => exact ha
    | some w =>
      dsimp only
      by_cases hw : w ∈ nw
      · rw [if_pos hw]
        intro f hf
        rcases mem_setMark _ _ _ _ hf with h | h
        · subst h
          exact hm e (List.mem_cons_self e m)
        · exact ha f h
      · rw [if_neg hw]
        exact ha

theorem marksInv_handleShuffle (s : GameState) (rnd : Nat → Nat)
    (hm : MarksInv s.tileMarks) : MarksInv (handleShuffle s rnd).tileMarks := by
  simp only [handleShuffle]
  exact marksInv_remapFold _ _ _ _ hm marksInv_nil

theorem marksInv_loadPuzzleState (psc : PuzzleStateCache) (d : String)
    (hpsc : PSCacheInv psc) :
    MarksInv (match loadPuzzleState psc d with
      | some p => p.tileMarks
      | none => []) := by
  cases hl : loadPuzzleState psc d with
  | none => exact marksInv_nil
  | some p =>
    unfold loadPuzzleState at hl
    cases hf : psc.find? (fun e => e.1 == d) with
    | none =>
      rw [hf] at hl
      cases hl
    | some q =>
      rw [hf] at hl
      cases hl
      exact hpsc q (List.mem_of_find?_eq_some hf)

theorem marksInv_handleDatePick (s : GameState) (cache : PuzzleCache)
    (psc : PuzzleStateCache) (date : Option String) (today : String)
    (net : FetchOutcome) (now : String) (hm : MarksInv s.tileMarks)
    (hpsc : PSCacheInv psc) :
    MarksInv (handleDatePick s cache psc date today net now).1.tileMarks := by
  simp only [handleDatePick]
  split
  · exact hm
  · split
    · exact marksInv_loadPuzzleState psc _ hpsc
    · exact hm

theorem marksInv_handleLoadTodaysPuzzle (s : GameState) (cache : PuzzleCache)
    (psc : PuzzleStateCache) (today : String) (net : FetchOutcome) (now : String)
    (hm : MarksInv s.tileMarks) (hpsc : PSCacheInv psc) :
    MarksInv (handleLoadTodaysPuzzle s cache psc today net now).1.tileMarks := by
  simp only [handleLoadTodaysPuzzle]
  split
  · exact marksInv_loadPuzzleState psc _ hpsc
  · exact hm

/-- C10: every state-mutating operation on the tile-mark record — toggle,
color swap, color clear, shuffle, reset, manual save and dated load —
preserves the invariant that stored entries have non-empty, duplicate-free
color lists (the loads assuming the same invariant of the saved-progress
cache they restore from). -/
theorem c10_marks_invariant (s : GameState) (i : Nat) (a b c : Color)
    (rnd : Nat → Nat) (cache : PuzzleCache) (psc : PuzzleStateCache)
    (date : Option String) (today : String) (net : FetchOutcome) (now : String)
    (hm : MarksInv s.tileMarks) (hpsc : PSCacheInv psc) :
    MarksInv (handleTileClick s i).tileMarks ∧
    MarksInv (handleColorSwap s a b).tileMarks ∧
    MarksInv (handleColorClear s c).tileMarks ∧
    MarksInv (handleShuffle s rnd).tileMarks ∧
    MarksInv (handleReset s).tileMarks ∧
    MarksInv (handleEditSave s).tileMarks ∧
    MarksInv (handleDatePick s cache psc date today net now).1.tileMarks ∧
    MarksInv (handleLoadTodaysPuzzle s cache psc today net now).1.tileMarks :=
  ⟨marksInv_handleTileClick s i hm,
   marksInv_handleColorSwap s a b hm,
   marksInv_handleColorClear s c hm,
   marksInv_handleShuffle s rnd hm,
   marksInv_nil,
   marksInv_nil,
   marksInv_handleDatePick s cache psc date today net now hm hpsc,
   marksInv_handleLoadTodaysPuzzle s cache psc today net now hm hpsc⟩

/-- Witness for C10 at a concrete state, mark record and progress cache. -/
theorem c10_marks_invariant_witness :
    MarksInv sC3.tileMarks ∧
    MarksInv (handleTileClick sC3 0).tileMarks :=
  ⟨by unfold MarksInv; decide,
   (c10_marks_invariant sC3 0 Color.yellow Color.green Color.red
      (fun _ => 0) [("2024-01-10", ⟨"2024-01-10", ["A"], ""⟩)]
      [("2024-01-10", ⟨[(1, [Color.red])], Color.blue, ""⟩)]
      (some "2024-01-10") "2024-01-11" (FetchOutcome.fail "e") ""
      (by unfold MarksInv; decide)
      (by unfold PSCacheInv MarksInv; decide)).1⟩

/-! ## Claims C5 and C6: the puzzle cache around the loader -/

theorem find?_map_replace (cache : PuzzleCache) (d : String) (p : CachedPuzzle)
    (hs : (cache.find? (fun e => e.1 == d)).isSome = true) :
    (cache.map (fun e => if e.1 == d then (d, p) else e)).find? (fun e => e.1 == d)
      = some (d, p) := by
  induction cache with
  | nil => simp at hs
  | cons e rest ih =>
    obtain ⟨k, q⟩ := e
    by_cases hk : k = d
    · subst hk
      simp
    · have hne : (k == d) = false := by simpa using hk
      simp only [List.map_cons, hne, Bool.false_eq_true, if_false]
      rw [List.find?_cons_of_neg _ (by simp [hne])]
      apply ih
      rw [List.find?_cons_of_neg _ (by simp [hne])] at hs
      exact hs

/-- A just-written cache entry is what `getCachedPuzzle` returns. -/
theorem getCachedPuzzle_cachePuzzle_self (cache : PuzzleCache) (d : String)
    (ws : List String) (now : String) :
    getCachedPuzzle (cachePuzzle cache d ws now) d = some ws := by
  unfold getCachedPuzzle cacheLookup cachePuzzle cacheInsert
  by_cases hs : (cache.find? (fun e => e.1 == d)).isSome
  · rw [if_pos hs, find?_map_replace cache d _ hs]
    rfl
  · rw [if_neg hs, List.find?_append]
    have hnone : cache.find? (fun e => e.1 == d) = none := by
      cases h2 : cache.find? (fun e => e.1 == d) with
      | none => rfl
      | some q =>
        rw [h2] at hs
        simp at hs
    rw [hnone]
    simp

/-- C5: when a load for date `d` succeeds, the cache afterwards holds the
returned words under `d`, a second load for `d` is served from that cache
with zero network requests and the same words, and the pair of loads
issued at most one request in total. -/
theorem c5_load_twice_one_fetch (cache : PuzzleCache) (d : String)
    (net net2 : FetchOutcome) (now now2 : String) (ws : List String)
    (c1 : PuzzleCache) (k : Nat)
    (h : fetchPuzzleByDate cache d net now = (Except.ok ws, c1, k)) :
    getCachedPuzzle c1 d = some ws ∧
    fetchPuzzleByDate c1 d net2 now2 = (Except.ok ws, c1, 0) ∧
    k ≤ 1 := by
  unfold fetchPuzzleByDate at h
  cases hc : getCachedPuzzle cache d with
  | some cw =>
    rw [hc] at h
    cases h
    refine ⟨hc, ?_, by omega⟩
    unfold fetchPuzzleByDate
    rw [hc]
  | none =>
    rw [hc] at h
    cases net with
    | ok data =>
      dsimp only at h
      cases h
      have hself := getCachedPuzzle_cachePuzzle_self cache d (parseNYTData data) now
      refine ⟨hself, ?_, by omega⟩
      unfold fetchPuzzleByDate
      rw [hself]
    | fail msg =>
      dsimp only at h
      cases h

/-- Witness for C5: a cache miss followed by a successful fetch of the
sample document, then a second load served from the cache. -/
theorem c5_load_twice_one_fetch_witness :
    fetchPuzzleByDate [] "2024-01-10" (FetchOutcome.ok sampleNYTData) "t" =
      (Except.ok ["DOG", "CAT"],
        [("2024-01-10",
          { date := "2024-01-10", words := ["DOG", "CAT"], fetchedAt := "t" })], 1) ∧
    fetchPuzzleByDate
        [("2024-01-10",
          { date := "2024-01-10", words := ["DOG", "CAT"], fetchedAt := "t" })]
        "2024-01-10" (FetchOutcome.fail "no second request") "u" =
      (Except.ok ["DOG", "CAT"],
        [("2024-01-10",
          { date := "2024-01-10", words := ["DOG", "CAT"], fetchedAt := "t" })], 0) :=
  ⟨rfl,
   (c5_load_twice_one_fetch [] "2024-01-10" (FetchOutcome.ok sampleNYTData)
      (FetchOutcome.fail "no second request") "t" "u" ["DOG", "CAT"] _ 1
      rfl).2.1⟩

/-- C6: on a cache miss with a failing request, the loader surfaces the
error and leaves the cache unchanged; and whenever the loader returns an
error the cache is unchanged (entries appear only on success). -/
theorem c6_failure_no_cache_write (cache : PuzzleCache) (d : String)
    (net : FetchOutcome) (now : String) :
    (getCachedPuzzle cache d = none → ∀ msg, net = FetchOutcome.fail msg →
      fetchPuzzleByDate cache d net now = (Except.error msg, cache, 1)) ∧
    (∀ e c1 k, fetchPuzzleByDate cache d net now = (Except.error e, c1, k) →
      c1 = cache) := by
  constructor
  · intro hmiss msg hnet
    subst hnet
    unfold fetchPuzzleByDate
    rw [hmiss]
  · intro e c1 k h
    unfold fetchPuzzleByDate at h
    cases hc : getCachedPuzzle cache d with
    | some cw =>
      rw [hc] at h
      cases h
    | none =>
      rw [hc] at h
      cases net with
      | ok data =>
        dsimp only at h
        cases h
      | fail msg =>
        dsimp only at h
        cases h
        rfl

/-- Witness for C6: a failing fetch on an empty cache. -/
theorem c6_failure_no_cache_write_witness :
    fetchPuzzleByDate [] "2024-01-10" (FetchOutcome.fail "boom") "t" =
      (Except.error "boom", [], 1) :=
  (c6_failure_no_cache_write [] "2024-01-10" (FetchOutcome.fail "boom") "t").1
    (by decide) "boom" rfl

/-! ## Claim C7: the document parser -/

theorem flatCards_foldl (cats : List NYTCategory) (acc : List NYTCard) :
    cats.foldl (fun acc category => acc ++ category.cards) acc =
      acc ++ (cats.map (fun category => category.cards)).flatten := by
  induction cats generalizing acc with
  | nil => simp
  | cons c cats ih => simp [ih, List.append_assoc]

/-- C7: `parseNYTData` flattens the cards of all categories, sorts the
flat list by position ascending, and upper-cases each content; on the
spec's sample document it yields exactly `["DOG", "CAT"]`. -/
theorem c7_parse_nyt_data (data : NYTConnectionsData) :
    parseNYTData sampleNYTData = ["DOG", "CAT"] ∧
    flatCards data = (data.categories.map (fun category => category.cards)).flatten ∧
    ((flatCards data).insertionSort cardLE).Perm (flatCards data) ∧
    List.Sorted cardLE ((flatCards data).insertionSort cardLE) ∧
    parseNYTData data =
      ((flatCards data).insertionSort cardLE).map
        (fun card => jsToUpper card.content) :=
  ⟨rfl,
   by simpa using flatCards_foldl data.categories [],
   List.perm_insertionSort cardLE _,
   List.sorted_insertionSort cardLE _,
   rfl⟩

/-! ## Claim C8: manual word entry -/

theorem parseEditText_length_le (t : String) : (parseEditText t).length ≤ 16 := by
  unfold parseEditText
  exact List.length_take_le 16 _

theorem parseEditText_no_empty (t : String) :
    ∀ w ∈ parseEditText t, w.length > 0 := by
  intro w hw
  unfold parseEditText at hw
  have hw2 := List.mem_of_mem_take hw
  have := (List.mem_filter.1 hw2).2
  simpa using this

/-- C8: saving manual entry parses the text by splitting on whitespace,
trimming, upper-casing, dropping empties and truncating to 16 tokens, and
clears the puzzle-date association; on `"ALPHA beta\nGAMMA"` the result is
exactly `["ALPHA", "BETA", "GAMMA"]`. -/
theorem c8_manual_entry (s : GameState) (h : s.editText = "ALPHA beta\nGAMMA") :
    (handleEditSave s).originalWords = ["ALPHA", "BETA", "GAMMA"] ∧
    (handleEditSave s).words = ["ALPHA", "BETA", "GAMMA"] ∧
    (handleEditSave s).puzzleDate = "" ∧
    (handleEditSave s).tileMarks = [] ∧
    (∀ t : String, (parseEditText t).length ≤ 16 ∧
      ∀ w ∈ parseEditText t, w.length > 0) := by
  have hp : parseEditText s.editText = ["ALPHA", "BETA", "GAMMA"] := by
    rw [h]
    rfl
  refine ⟨?_, ?_, rfl, rfl, fun t => ⟨parseEditText_length_le t, parseEditText_no_empty t⟩⟩
  · show parseEditText s.editText = _
    exact hp
  · show parseEditText s.editText = _
    exact hp

/-- Witness for C8 at the spec's concrete manual entry. -/
theorem c8_manual_entry_witness :
    (handleEditSave { baseState with editText := "ALPHA beta\nGAMMA" }).words =
      ["ALPHA", "BETA", "GAMMA"] :=
  (c8_manual_entry { baseState with editText := "ALPHA beta\nGAMMA" } rfl).2.1

/-! ## Claim C2: the replace-word-list operations -/

/-- C2 fails as stated: completing a dated fetch does not always clear the
tile marks — when the per-puzzle progress cache has an entry for that
date, the saved marks are restored instead. Here the load for 2024-01-10
(served from the word-list cache) brings back the saved mark. -/
theorem c2_replace_clears_marks_counterexample :
    (handleDatePick baseState cacheWithEntry savedProgress (some "2024-01-10")
        "2024-01-11" (FetchOutcome.fail "unused") "").1.tileMarks =
      [(0, [Color.yellow])] ∧
    (handleDatePick baseState cacheWithEntry savedProgress (some "2024-01-10")
        "2024-01-11" (FetchOutcome.fail "unused") "").1.tileMarks ≠ [] :=
  ⟨rfl, by decide⟩

/-- C2, amended: a manual save sets both word orders to the parsed entry,
clears all marks and clears the date association; a completed dated fetch
sets both orders to the fetched list and the date association to the
fetched date, and sets the marks to the saved progress for that date when
present — clearing them only when no progress is saved. -/
theorem c2_replace_word_list_amended (s : GameState) (cache : PuzzleCache)
    (psc : PuzzleStateCache) (d today : String) (net : FetchOutcome) (now : String)
    (ws : List String) (c2 : PuzzleCache) (k : Nat) (hd : d ≠ "")
    (hfetch : fetchPuzzleByDate cache d net now = (Except.ok ws, c2, k)) :
    ((handleEditSave s).originalWords = parseEditText s.editText ∧
     (handleEditSave s).words = parseEditText s.editText ∧
     (handleEditSave s).tileMarks = [] ∧
     (handleEditSave s).puzzleDate = "") ∧
    ((handleDatePick s cache psc (some d) today net now).1.originalWords = ws ∧
     (handleDatePick s cache psc (some d) today net now).1.words = ws ∧
     (handleDatePick s cache psc (some d) today net now).1.puzzleDate = d ∧
     (handleDatePick s cache psc (some d) today net now).1.tileMarks =
       (match loadPuzzleState psc d with
        | some p => p.tileMarks
        | none => []) ∧
     (loadPuzzleState psc d = none →
       (handleDatePick s cache psc (some d) today net now).1.tileMarks = [])) := by
  have hmain : handleDatePick s cache psc (some d) today net now =
      ({ s with
          selectedPill := if d = today then Pill.today else Pill.date
          originalWords := ws
          words := ws
          tileMarks := match loadPuzzleState psc d with
            | some p => p.tileMarks
            | none => []
          activeColor := match loadPuzzleState psc d with
            | some p => p.activeColor
            | none => Color.yellow
          editText := String.intercalate " " ws
          puzzleDate := d
          isLoading := false }, c2) := by
    unfold handleDatePick
    dsimp only
    rw [if_pos hd, if_neg hd, hfetch]
  rw [hmain]
  refine ⟨⟨rfl, rfl, rfl, rfl⟩, rfl, rfl, rfl, rfl, ?_⟩
  intro hnone
  simp only [hnone]

/-- Witness for the amended C2: a dated load served from the concrete
cache replaces the display words with the cached list. -/
theorem c2_replace_word_list_amended_witness :
    (handleDatePick baseState cacheWithEntry savedProgress (some "2024-01-10")
        "2024-01-11" (FetchOutcome.fail "unused") "").1.words = ["APPLE"] :=
  (c2_replace_word_list_amended baseState cacheWithEntry savedProgress
      "2024-01-10" "2024-01-11" (FetchOutcome.fail "unused") "" ["APPLE"]
      cacheWithEntry 0 (by decide) rfl).2.2.1

/-! ## Claim C1: shuffle is a permutation and unique-word marks follow -/

theorem cons_set_perm :
    ∀ (t : List String) (k : Nat) (hk : k < t.length) (a : String),
      (t.get ⟨k, hk⟩ :: t.set k a).Perm (a :: t) := by
  intro t
  induction t with
  | nil =>
    intro k hk
    simp at hk
  | cons b t ih =>
    intro k hk a
    cases k with
    | zero => exact List.Perm.swap a b t
    | succ k =>
      have hk2 : k < t.length := by simpa using hk
      have s1 : (t.get ⟨k, hk2⟩ :: b :: t.set k a).Perm
          (b :: t.get ⟨k, hk2⟩ :: t.set k a) :=
        List.Perm.swap b (t.get ⟨k, hk2⟩) _
      have s2 : (b :: t.get ⟨k, hk2⟩ :: t.set k a).Perm (b :: a :: t) :=
        (ih k hk2 a).cons b
      have s3 : (b :: a :: t).Perm (a :: b :: t) := List.Perm.swap a b t
      exact (s1.trans s2).trans s3

theorem set_set_swap_perm :
    ∀ (l : List String) (i j : Nat) (hi : i < l.length) (hj : j < l.length),
      ((l.set i (l.get ⟨j, hj⟩)).set j (l.get ⟨i, hi⟩)).Perm l := by
  intro l
  induction l with
  | nil =>
    intro i j hi
    simp at hi
  | cons b t ih =>
    intro i j hi hj
    cases i with
    | zero =>
      cases j with
      | zero => exact List.Perm.refl _
      | succ k =>
        have hk : k < t.length := by simpa using hj
        exact cons_set_perm t k hk b
    | succ m =>
      have hm : m < t.length := by simpa using hi
      cases j with
      | zero => exact cons_set_perm t m hm b
      | succ k =>
        have hk : k < t.length := by simpa using hj
        exact (ih m k hm hk).cons b

theorem listSwap_perm (l : List String) (i j : Nat) : (listSwap l i j).Perm l := by
  cases hi : l[i]? with
  | none =>
    cases hj : l[j]? with
    | none =>
      simp only [listSwap, hi, hj]
      exact List.Perm.refl l
    | some y =>
      simp only [listSwap, hi, hj]
      exact List.Perm.refl l
  | some x =>
    cases hj : l[j]? with
    | none =>
      simp only [listSwap, hi, hj]
      exact List.Perm.refl l
    | some y =>
      simp only [listSwap, hi, hj]
      obtain ⟨hi2, hx⟩ := List.getElem?_eq_some_iff.1 hi
      obtain ⟨hj2, hy⟩ := List.getElem?_eq_some_iff.1 hj
      subst hx
      subst hy
      exact set_set_swap_perm l i j hi2 hj2

theorem fyGo_perm (rnd : Nat → Nat) : ∀ (n : Nat) (l : List String),
    (fyGo rnd n l).Perm l := by
  intro n
  induction n with
  | zero =>
    intro l
    exact List.Perm.refl l
  | succ i ih =>
    intro l
    exact (ih _).trans (listSwap_perm l (i + 1) (rnd (i + 1)))

/-- The Fisher–Yates shuffle permutes its input, whatever the random
draws. -/
theorem fisherYates_perm (ws : List String) (rnd : Nat → Nat) :
    (fisherYates ws rnd).Perm ws :=
  fyGo_perm rnd (ws.length - 1) ws

/-- Two distinct positions holding the same word force a count of at
least two. -/
theorem two_le_count_of_getElem_eq (w : String) :
    ∀ (l : List String) (i j : Nat) (hi : i < l.length) (hj : j < l.length),
      i ≠ j → l.get ⟨i, hi⟩ = w → l.get ⟨j, hj⟩ = w → 2 ≤ l.count w := by
  intro l
  induction l with
  | nil =>
    intro i j hi
    simp at hi
  | cons b t ih =>
    intro i j hi hj hij h1 h2
    cases i with
    | zero =>
      cases j with
      | zero => exact absurd rfl hij
      | succ k =>
        have hk : k < t.length := by simpa using hj
        have hbw : b = w := h1
        have hmem : w ∈ t := by
          have hget : t.get ⟨k, hk⟩ ∈ t := List.get_mem t k hk
          have h2b : t.get ⟨k, hk⟩ = w := h2
          rwa [h2b] at hget
        subst hbw
        have hpos : 0 < t.count b := List.count_pos_iff.2 hmem
        rw [List.count_cons_self]
        omega
    | succ m =>
      have hm : m < t.length := by simpa using hi
      cases j with
      | zero =>
        have hbw : b = w := h2
        have hmem : w ∈ t := by
          have hget : t.get ⟨m, hm⟩ ∈ t := List.get_mem t m hm
          have h1b : t.get ⟨m, hm⟩ = w := h1
          rwa [h1b] at hget
        subst hbw
        have hpos : 0 < t.count b := List.count_pos_iff.2 hmem
        rw [List.count_cons_self]
        omega
      | succ k =>
        have hk : k < t.length := by simpa using hj
        have h1b : t.get ⟨m, hm⟩ = w := h1
        have h2b : t.get ⟨k, hk⟩ = w := h2
        have h3 := ih m k hm hk (by omega) h1b h2b
        rw [List.count_cons]
        omega

/-- Folding the remap step over entries none of which can write index
`n0` leaves the lookup at `n0` unchanged. -/
theorem getMarks_remapFold_of_avoid (ow nw : List String) (n0 : Nat) :
    ∀ (m acc : TileMarks),
      (∀ e ∈ m, ∀ u, ow[e.1]? = some u → u ∈ nw → nw.indexOf u ≠ n0) →
      getMarks (m.foldl (remapStep ow nw) acc) n0 = getMarks acc n0 := by
  intro m
  induction m with
  | nil =>
    intro acc _
    rfl
  | cons e m ih =>
    intro acc hP
    rw [List.foldl_cons, ih _ (fun f hf => hP f (List.mem_cons_of_mem e hf))]
    unfold remapStep
    cases hw : ow[e.1]? with
    | none => rfl
    | some u =>
      dsimp only
      by_cases hmem : u ∈ nw
      · rw [if_pos hmem]
        exact getMarks_setMark_ne acc _ n0 e.2
          (fun hEq => hP e (List.mem_cons_self e m) u hw hmem hEq.symm)
      · rw [if_neg hmem]

/-- Folding the remap step when exactly the entry keyed `i` (if any) can
write index `n0`: the lookup at `n0` afterwards is that entry's colors,
or the accumulator's value when no entry has key `i`. -/
theorem getMarks_remapFold_unique (ow nw : List String) (i n0 : Nat) (w : String)
    (hii : ow[i]? = some w) (hmemw : w ∈ nw) (hidx : nw.indexOf w = n0) :
    ∀ (m acc : TileMarks),
      (m.map Prod.fst).Nodup →
      (∀ e ∈ m, e.1 ≠ i → ∀ u, ow[e.1]? = some u → u ∈ nw → nw.indexOf u ≠ n0) →
      getMarks (m.foldl (remapStep ow nw) acc) n0 =
        (match m.find? (fun e => e.1 == i) with
         | some e => e.2
         | none => getMarks acc n0) := by
  intro m
  induction m with
  | nil =>
    intro acc _ _
    rfl
  | cons e m ih =>
    intro acc hkeys hP
    rw [List.foldl_cons]
    by_cases hei : e.1 = i
    · have hpred : (e.1 == i) = true := by simpa using hei
      have hfind : List.find? (fun f => f.1 == i) (e :: m) = some e := by
        simp [List.find?_cons, hpred]
      rw [hfind]
      have hnotin : ∀ f ∈ m, f.1 ≠ i := by
        intro f hf hfi
        have hfm : f.1 ∈ m.map Prod.fst := List.mem_map_of_mem Prod.fst hf
        rw [hfi, ← hei] at hfm
        exact (List.nodup_cons.1 hkeys).1 hfm
      have hstep : remapStep ow nw acc e = setMark acc n0 e.2 := by
        unfold remapStep
        rw [hei, hii]
        dsimp only
        rw [if_pos hmemw, hidx]
      rw [hstep,
        getMarks_remapFold_of_avoid ow nw n0 m _
          (fun f hf u hu hum => hP f (List.mem_cons_of_mem e hf) (hnotin f hf) u hu hum)]
      exact getMarks_setMark_self acc n0 e.2
    · have hpred : (e.1 == i) = false := by simpa using hei
      have hfind : List.find? (fun f => f.1 == i) (e :: m) =
          List.find? (fun f => f.1 == i) m := by
        simp [List.find?_cons, hpred]
      rw [hfind]
      have hstep : getMarks (remapStep ow nw acc e) n0 = getMarks acc n0 := by
        unfold remapStep
        cases hw2 : ow[e.1]? with
        | none => rfl
        | some u =>
          dsimp only
          by_cases hmem : u ∈ nw
          · rw [if_pos hmem]
            exact getMarks_setMark_ne acc _ n0 e.2
              (fun hEq => hP e (List.mem_cons_self e m) hei u hw2 hmem hEq.symm)
          · rw [if_neg hmem]
      rw [ih (remapStep ow nw acc e) (List.nodup_cons.1 hkeys).2
        (fun f hf => hP f (List.mem_cons_of_mem e hf))]
      cases hfind : m.find? (fun f => f.1 == i) with
      | some f => rfl
      | none => exact hstep

/-- The remapped record, looked up at the new index of a word unique in
the old display order, returns the old entry of that word's tile. -/
theorem shuffleRemap_getMarks_unique (ow nw : List String) (m : TileMarks)
    (i : Nat) (hi : i < ow.length) (hkeys : (m.map Prod.fst).Nodup)
    (hwnw : ow.get ⟨i, hi⟩ ∈ nw)
    (huniq : ow.count (ow.get ⟨i, hi⟩) = 1) :
    getMarks (shuffleRemap ow nw m) (nw.indexOf (ow.get ⟨i, hi⟩)) =
      getMarks m i := by
  have hii : ow[i]? = some (ow.get ⟨i, hi⟩) := by
    rw [List.getElem?_eq_getElem hi]
    rfl
  have hP : ∀ e ∈ m, e.1 ≠ i → ∀ u, ow[e.1]? = some u → u ∈ nw →
      nw.indexOf u ≠ nw.indexOf (ow.get ⟨i, hi⟩) := by
    intro e he hne u hu humem heq
    have hlt1 : nw.indexOf u < nw.length := List.indexOf_lt_length.2 humem
    have h1 : nw[nw.indexOf u]? = some u := by
      rw [List.getElem?_eq_getElem hlt1, List.getElem_indexOf hlt1]
    have hlt2 : nw.indexOf (ow.get ⟨i, hi⟩) < nw.length :=
      List.indexOf_lt_length.2 hwnw
    have h2 : nw[nw.indexOf (ow.get ⟨i, hi⟩)]? = some (ow.get ⟨i, hi⟩) := by
      rw [List.getElem?_eq_getElem hlt2, List.getElem_indexOf hlt2]
    rw [heq] at h1
    have huw : u = ow.get ⟨i, hi⟩ := Option.some.inj (h1.symm.trans h2)
    obtain ⟨he1, hue⟩ := List.getElem?_eq_some_iff.1 hu
    have hcount := two_le_count_of_getElem_eq (ow.get ⟨i, hi⟩) ow e.1 i he1 hi hne
      (by rw [← huw, ← hue]; rfl) rfl
    omega
  have hmain := getMarks_remapFold_unique ow nw i (nw.indexOf (ow.get ⟨i, hi⟩))
    (ow.get ⟨i, hi⟩) hii hwnw rfl m [] hkeys hP
  unfold shuffleRemap
  rw [hmain]
  unfold getMarks
  cases hf : m.find? (fun e => e.1 == i) <;> rfl

/-- C1: for a displayed order that is a permutation of the original, the
shuffle produces a display order with the same multiset of words, and for
any tile whose word occurs exactly once in the displayed list, the mark
list at that tile's old index reappears unchanged at the word's new
index. -/
theorem c1_shuffle_preserves_words_and_marks (s : GameState) (rnd : Nat → Nat)
    (i : Nat) (hi : i < s.words.length)
    (hperm : s.words.Perm s.originalWords)
    (hkeys : (s.tileMarks.map Prod.fst).Nodup)
    (huniq : s.words.count (s.words.get ⟨i, hi⟩) = 1) :
    (handleShuffle s rnd).words.Perm s.words ∧
    getMarks (handleShuffle s rnd).tileMarks
        ((handleShuffle s rnd).words.indexOf (s.words.get ⟨i, hi⟩)) =
      getMarks s.tileMarks i := by
  have hp1 : (fisherYates s.originalWords rnd).Perm s.originalWords :=
    fisherYates_perm _ _
  have hpw : (fisherYates s.originalWords rnd).Perm s.words :=
    hp1.trans hperm.symm
  have hwmem : s.words.get ⟨i, hi⟩ ∈ s.words := List.get_mem s.words i hi
  have hwnw : s.words.get ⟨i, hi⟩ ∈ fisherYates s.originalWords rnd :=
    hpw.mem_iff.2 hwmem
  exact ⟨hpw,
    shuffleRemap_getMarks_unique s.words (fisherYates s.originalWords rnd)
      s.tileMarks i hi hkeys hwnw huniq⟩

/-- Witness for C1 at a concrete state and random stream. -/
theorem c1_shuffle_witness :
    (handleShuffle sC1 (fun _ => 0)).words.Perm sC1.words ∧
    getMarks (handleShuffle sC1 (fun _ => 0)).tileMarks
        ((handleShuffle sC1 (fun _ => 0)).words.indexOf
          (sC1.words.get ⟨0, by decide⟩)) =
      getMarks sC1.tileMarks 0 :=
  c1_shuffle_preserves_words_and_marks sC1 (fun _ => 0) 0 (by decide) (by decide)
    (by decide) (by decide)

/-! ## Claim C9: local dates and the calendar range

The calendar rejects a candidate date by comparing `YYYY-MM-DD` strings
with JavaScript `<`/`>`. The lemmas below show this lexicographic
comparison agrees with chronological order on the in-range calendar
components, so the maximum permitted date is exactly the local today. -/

theorem natToCharsAux_fuel : ∀ (n f1 f2 : Nat), n < f1 → n < f2 →
    natToCharsAux f1 n = natToCharsAux f2 n := by
  intro n
  induction n using Nat.strong_induction_on with
  | _ n ih =>
    intro f1 f2 h1 h2
    cases f1 with
    | zero => omega
    | succ g =>
      cases f2 with
      | zero => omega
      | succ h =>
        show (if n < 10 then [Nat.digitChar n]
            else natToCharsAux g (n / 10) ++ [Nat.digitChar (n % 10)]) =
          (if n < 10 then [Nat.digitChar n]
            else natToCharsAux h (n / 10) ++ [Nat.digitChar (n % 10)])
        by_cases h10 : n < 10
        · rw [if_pos h10, if_pos h10]
        · rw [if_neg h10, if_neg h10]
          have hdiv : n / 10 < n := Nat.div_lt_self (by omega) (by omega)
          rw [ih (n / 10) hdiv g h (by omega) (by omega)]

theorem natToChars_eq (n : Nat) :
    natToChars n =
      (if n < 10 then [Nat.digitChar n]
       else natToChars (n / 10) ++ [Nat.digitChar (n % 10)]) := by
  show (if n < 10 then [Nat.digitChar n]
      else natToCharsAux n (n / 10) ++ [Nat.digitChar (n % 10)]) = _
  by_cases h10 : n < 10
  · rw [if_pos h10, if_pos h10]
  · rw [if_neg h10, if_neg h10]
    have hdiv : n / 10 < n := Nat.div_lt_self (by omega) (by omega)
    rw [natToCharsAux_fuel (n / 10) n (n / 10 + 1) hdiv (by omega)]
    rfl

theorem natToChars_lt10 (n : Nat) (h : n < 10) :
    natToChars n = [Nat.digitChar n] := by
  rw [natToChars_eq, if_pos h]

theorem natToChars2 (n : Nat) (h1 : 10 ≤ n) (h2 : n < 100) :
    natToChars n = [Nat.digitChar (n / 10), Nat.digitChar (n % 10)] := by
  rw [natToChars_eq, if_neg (by omega), natToChars_lt10 (n / 10) (by omega)]
  rfl

theorem natToChars4 (y : Nat) (h1 : 1000 ≤ y) (h2 : y ≤ 9999) :
    natToChars y =
      [Nat.digitChar (y / 1000), Nat.digitChar (y / 100 % 10),
       Nat.digitChar (y / 10 % 10), Nat.digitChar (y % 10)] := by
  rw [natToChars_eq, if_neg (by omega)]
  rw [natToChars_eq, if_neg (by omega)]
  rw [natToChars2 (y / 10 / 10) (by omega) (by omega)]
  have e1 : y / 10 / 10 = y / 100 := by omega
  have e2 : y / 10 / 10 / 10 = y / 1000 := by omega
  rw [e2, e1]
  rfl

theorem digitChar_lt_iff : ∀ a, a < 10 → ∀ b, b < 10 →
    ((Nat.digitChar a < Nat.digitChar b) ↔ a < b) := by
  decide

theorem digitChar_inj : ∀ a, a < 10 → ∀ b, b < 10 →
    (Nat.digitChar a = Nat.digitChar b ↔ a = b) := by
  decide

/-- The numeric value of a fixed-width digit list. -/
def valD : List Nat → Nat
  | [] => 0
  | d :: ds => d * 10 ^ ds.length + valD ds

theorem valD_lt_pow (ds : List Nat) (h : ∀ d ∈ ds, d < 10) :
    valD ds < 10 ^ ds.length := by
  induction ds with
  | nil => simp [valD]
  | cons d ds ih =>
    have hd : d < 10 := h d (List.mem_cons_self d ds)
    have h1 : valD ds < 10 ^ ds.length :=
      ih (fun x hx => h x (List.mem_cons_of_mem d hx))
    show d * 10 ^ ds.length + valD ds < 10 ^ (ds.length + 1)
    calc d * 10 ^ ds.length + valD ds
        < d * 10 ^ ds.length + 10 ^ ds.length := Nat.add_lt_add_left h1 _
      _ = (d + 1) * 10 ^ ds.length := by ring
      _ ≤ 10 * 10 ^ ds.length := Nat.mul_le_mul_right _ (by omega)
      _ = 10 ^ (ds.length + 1) := by ring

theorem lex_digits : ∀ (ds es : List Nat), ds.length = es.length →
    (∀ d ∈ ds, d < 10) → (∀ e ∈ es, e < 10) →
    ((lexLtChars (ds.map Nat.digitChar) (es.map Nat.digitChar) = true) ↔
      valD ds < valD es) := by
  intro ds
  induction ds with
  | nil =>
    intro es hlen _ _
    cases es with
    | nil => simp [lexLtChars, valD]
    | cons e es => simp at hlen
  | cons d ds ih =>
    intro es hlen hds hes
    cases es with
    | nil => simp at hlen
    | cons e es =>
      have hlen2 : ds.length = es.length := by simpa using hlen
      have hd : d < 10 := hds d (List.mem_cons_self d ds)
      have he : e < 10 := hes e (List.mem_cons_self e es)
      have hX : valD ds < 10 ^ ds.length :=
        valD_lt_pow ds (fun x hx => hds x (List.mem_cons_of_mem d hx))
      have hY : valD es < 10 ^ es.length :=
        valD_lt_pow es (fun x hx => hes x (List.mem_cons_of_mem e hx))
      show (lexLtChars (Nat.digitChar d :: ds.map Nat.digitChar)
          (Nat.digitChar e :: es.map Nat.digitChar) = true) ↔ _
      unfold lexLtChars
      by_cases hde : d < e
      · rw [if_pos ((digitChar_lt_iff d hd e he).2 hde)]
        simp only [true_iff]
        show d * 10 ^ ds.length + valD ds < e * 10 ^ es.length + valD es
        rw [← hlen2]
        calc d * 10 ^ ds.length + valD ds
            < d * 10 ^ ds.length + 10 ^ ds.length := Nat.add_lt_add_left hX _
          _ = (d + 1) * 10 ^ ds.length := by ring
          _ ≤ e * 10 ^ ds.length := Nat.mul_le_mul_right _ (by omega)
          _ ≤ e * 10 ^ ds.length + valD es := Nat.le_add_right _ _
      · have hnlt : ¬ Nat.digitChar d < Nat.digitChar e := by
          intro hc
          exact hde ((digitChar_lt_iff d hd e he).1 hc)
        rw [if_neg hnlt]
        by_cases hed : e < d
        · rw [if_pos ((digitChar_lt_iff e he d hd).2 hed)]
          simp only [Bool.false_eq_true, false_iff]
          intro hc
          show False
          have hle : e * 10 ^ es.length + valD es < d * 10 ^ ds.length + valD ds := by
            rw [← hlen2] at hY ⊢
            calc e * 10 ^ ds.length + valD es
                < e * 10 ^ ds.length + 10 ^ ds.length := Nat.add_lt_add_left hY _
              _ = (e + 1) * 10 ^ ds.length := by ring
              _ ≤ d * 10 ^ ds.length := Nat.mul_le_mul_right _ (by omega)
              _ ≤ d * 10 ^ ds.length + valD ds := Nat.le_add_right _ _
          have hc2 : d * 10 ^ ds.length + valD ds < e * 10 ^ es.length + valD es := hc
          omega
        · have hde2 : d = e := by omega
          subst hde2
          have hirr : ¬ Nat.digitChar d < Nat.digitChar d := lt_irrefl _
          rw [if_neg hirr]
          rw [ih es hlen2 (fun x hx => hds x (List.mem_cons_of_mem d hx))
            (fun x hx => hes x (List.mem_cons_of_mem d hx))]
          show valD ds < valD es ↔
            d * 10 ^ ds.length + valD ds < d * 10 ^ es.length + valD es
          rw [hlen2]
          omega

theorem map_digitChar_inj : ∀ (ds es : List Nat), (∀ d ∈ ds, d < 10) →
    (∀ e ∈ es, e < 10) →
    (ds.map Nat.digitChar = es.map Nat.digitChar ↔ ds = es) := by
  intro ds
  induction ds with
  | nil =>
    intro es _ _
    cases es with
    | nil => simp
    | cons e es => simp
  | cons d ds ih =>
    intro es hds hes
    cases es with
    | nil => simp
    | cons e es =>
      simp only [List.map_cons, List.cons.injEq]
      rw [ih es (fun x hx => hds x (List.mem_cons_of_mem d hx))
        (fun x hx => hes x (List.mem_cons_of_mem e hx))]
      rw [digitChar_inj d (hds d (List.mem_cons_self d ds))
        e (hes e (List.mem_cons_self e es))]

theorem char_eq_of_not_lt (a b : Char) (h1 : ¬ a < b) (h2 : ¬ b < a) : a = b :=
  le_antisymm (le_of_not_lt h2) (le_of_not_lt h1)

theorem lexLt_cons_same (c : Char) (r r2 : List Char) :
    lexLtChars (c :: r) (c :: r2) = lexLtChars r r2 := by
  simp [lexLtChars, lt_irrefl]

theorem lexLt_append : ∀ (xs ys as bs : List Char), xs.length = ys.length →
    lexLtChars (xs ++ as) (ys ++ bs) =
      (lexLtChars xs ys || ((xs == ys) && lexLtChars as bs)) := by
  intro xs
  induction xs with
  | nil =>
    intro ys as bs hlen
    cases ys with
    | nil => simp [lexLtChars]
    | cons y ys => simp at hlen
  | cons x xs ih =>
    intro ys as bs hlen
    cases ys with
    | nil => simp at hlen
    | cons y ys =>
      have hlen2 : xs.length = ys.length := by simpa using hlen
      show lexLtChars (x :: (xs ++ as)) (y :: (ys ++ bs)) = _
      by_cases hxy : x < y
      · unfold lexLtChars
        rw [if_pos hxy, if_pos hxy]
        rfl
      · by_cases hyx : y < x
        · have hne : (x == y) = false := by
            have hneq : x ≠ y := fun h => absurd (h ▸ hyx) (lt_irrefl x)
            simpa using hneq
          have hcons : ((x :: xs : List Char) == y :: ys) =
              (x == y && (xs == ys)) := rfl
          unfold lexLtChars
          rw [if_neg hxy, if_pos hyx, if_neg hxy, if_pos hyx]
          rw [hcons, hne]
          simp
        · have hxy2 : x = y := char_eq_of_not_lt x y hxy hyx
          subst hxy2
          have hcons : ((x :: xs : List Char) == x :: ys) =
              (x == x && (xs == ys)) := rfl
          rw [lexLt_cons_same, lexLt_cons_same, ih ys as bs hlen2, hcons]
          simp

theorem padStart2_numToStr_data (n : Nat) (h : n < 100) :
    (padStart2 (numToStr n)).data =
      [Nat.digitChar (n / 10), Nat.digitChar (n % 10)] := by
  by_cases h10 : n < 10
  · have hd : numToStr n = String.mk [Nat.digitChar n] := by
      unfold numToStr
      rw [natToChars_lt10 n h10]
    rw [hd]
    unfold padStart2
    rw [if_pos (by simp [String.length])]
    have hdiv : n / 10 = 0 := Nat.div_eq_of_lt h10
    have hmod : n % 10 = n := Nat.mod_eq_of_lt h10
    rw [hdiv, hmod]
    simp [String.length]
    rfl
  · have hd : numToStr n = String.mk [Nat.digitChar (n / 10), Nat.digitChar (n % 10)] := by
      unfold numToStr
      rw [natToChars2 n (by omega) h]
    rw [hd]
    unfold padStart2
    rw [if_neg (by simp [String.length])]

/-- The characters of `getLocalDateString`, for in-range components:
four year digits, a dash, two month digits, a dash, two day digits. -/
theorem getLocalDateString_data (d : JsDate) (hv : validDate d) :
    (getLocalDateString d).data =
      ([d.localYear / 1000, d.localYear / 100 % 10, d.localYear / 10 % 10,
          d.localYear % 10].map Nat.digitChar) ++
        '-' :: (([(d.localMonth + 1) / 10, (d.localMonth + 1) % 10].map
            Nat.digitChar) ++
          '-' :: ([d.localDay / 10, d.localDay % 10].map Nat.digitChar)) := by
  obtain ⟨h1, h2, h3, h4, h5⟩ := hv
  unfold getLocalDateString
  simp only [String.data_append]
  rw [show (numToStr d.localYear).data = natToChars d.localYear from rfl]
  rw [natToChars4 d.localYear h1 h2]
  rw [padStart2_numToStr_data (d.localMonth + 1) (by omega)]
  rw [padStart2_numToStr_data d.localDay (by omega)]
  rfl

theorem valD4 (y : Nat) (_h : y ≤ 9999) :
    valD [y / 1000, y / 100 % 10, y / 10 % 10, y % 10] = y := by
  show y / 1000 * 10 ^ 3 + (y / 100 % 10 * 10 ^ 2 + (y / 10 % 10 * 10 ^ 1 +
    (y % 10 * 10 ^ 0 + 0))) = y
  norm_num
  omega

theorem valD2 (x : Nat) (_h : x < 100) :
    valD [x / 10, x % 10] = x := by
  show x / 10 * 10 ^ 1 + (x % 10 * 10 ^ 0 + 0) = x
  norm_num
  omega

/-- JavaScript string comparison of two formatted local dates agrees with
chronological order of their calendar components. -/
theorem strLt_getLocalDateString (c n : JsDate) (hc : validDate c)
    (hn : validDate n) :
    (strLt (getLocalDateString c) (getLocalDateString n) = true) ↔ chronLt c n := by
  obtain ⟨hc1, hc2, hc3, hc4, hc5⟩ := hc
  obtain ⟨hn1, hn2, hn3, hn4, hn5⟩ := hn
  unfold strLt
  rw [getLocalDateString_data c ⟨hc1, hc2, hc3, hc4, hc5⟩,
    getLocalDateString_data n ⟨hn1, hn2, hn3, hn4, hn5⟩]
  rw [lexLt_append _ _ _ _ (by simp)]
  rw [lexLt_cons_same]
  rw [lexLt_append _ _ _ _ (by simp)]
  rw [lexLt_cons_same]
  have hYbound : ∀ x ∈ [c.localYear / 1000, c.localYear / 100 % 10,
      c.localYear / 10 % 10, c.localYear % 10], x < 10 := by
    intro x hx
    simp only [List.mem_cons, List.not_mem_nil, or_false] at hx
    rcases hx with h | h | h | h <;> subst h <;> omega
  have hYbound2 : ∀ x ∈ [n.localYear / 1000, n.localYear / 100 % 10,
      n.localYear / 10 % 10, n.localYear % 10], x < 10 := by
    intro x hx
    simp only [List.mem_cons, List.not_mem_nil, or_false] at hx
    rcases hx with h | h | h | h <;> subst h <;> omega
  have hMbound : ∀ x ∈ [(c.localMonth + 1) / 10, (c.localMonth + 1) % 10], x < 10 := by
    intro x hx
    simp only [List.mem_cons, List.not_mem_nil, or_false] at hx
    rcases hx with h | h <;> subst h <;> omega
  have hMbound2 : ∀ x ∈ [(n.localMonth + 1) / 10, (n.localMonth + 1) % 10], x < 10 := by
    intro x hx
    simp only [List.mem_cons, List.not_mem_nil, or_false] at hx
    rcases hx with h | h <;> subst h <;> omega
  have hDbound : ∀ x ∈ [c.localDay / 10, c.localDay % 10], x < 10 := by
    intro x hx
    simp only [List.mem_cons, List.not_mem_nil, or_false] at hx
    rcases hx with h | h <;> subst h <;> omega
  have hDbound2 : ∀ x ∈ [n.localDay / 10, n.localDay % 10], x < 10 := by
    intro x hx
    simp only [List.mem_cons, List.not_mem_nil, or_false] at hx
    rcases hx with h | h <;> subst h <;> omega
  have hYlex := lex_digits _ _ (by simp) hYbound hYbound2
  have hMlex := lex_digits _ _ (by simp) hMbound hMbound2
  have hDlex := lex_digits _ _ (by simp) hDbound hDbound2
  rw [valD4 c.localYear hc2, valD4 n.localYear hn2] at hYlex
  rw [valD2 (c.localMonth + 1) (by omega), valD2 (n.localMonth + 1) (by omega)]
    at hMlex
  rw [valD2 c.localDay (by omega), valD2 n.localDay (by omega)] at hDlex
  have hYeq : ((([c.localYear / 1000, c.localYear / 100 % 10, c.localYear / 10 % 10,
      c.localYear % 10].map Nat.digitChar) ==
        ([n.localYear / 1000, n.localYear / 100 % 10, n.localYear / 10 % 10,
          n.localYear % 10].map Nat.digitChar)) = true) ↔
      c.localYear = n.localYear := by
    rw [beq_iff_eq, map_digitChar_inj _ _ hYbound hYbound2]
    constructor
    · intro hx
      simp only [List.cons.injEq] at hx
      omega
    · intro hx
      rw [hx]
  have hMeq : ((([(c.localMonth + 1) / 10, (c.localMonth + 1) % 10].map
      Nat.digitChar) ==
        ([(n.localMonth + 1) / 10, (n.localMonth + 1) % 10].map Nat.digitChar))
          = true) ↔ c.localMonth = n.localMonth := by
    rw [beq_iff_eq, map_digitChar_inj _ _ hMbound hMbound2]
    constructor
    · intro hx
      simp only [List.cons.injEq] at hx
      omega
    · intro hx
      rw [hx]
  simp only [Bool.or_eq_true, Bool.and_eq_true]
  rw [hYlex, hYeq, hMlex, hMeq, hDlex]
  unfold chronLt
  omega

/-- C9: the today string is built from the local calendar components
alone (two instants with the same local components — however their UTC
components differ — format identically); the date picker's maximum is
exactly that local today; and for in-range components a candidate is
rejected exactly when it is chronologically after today or before the
fixed minimum 2023-06-12. -/
theorem c9_local_today_and_range (d1 d2 now cand : JsDate)
    (hloc : d1.localYear = d2.localYear ∧ d1.localMonth = d2.localMonth ∧
      d1.localDay = d2.localDay)
    (hvn : validDate now) (hvc : validDate cand) :
    getLocalDateString d1 = getLocalDateString d2 ∧
    getMaxAllowedDate now = getLocalDateString now ∧
    minAllowedDate = getLocalDateString minAllowedJsDate ∧
    (calendarDisabled now cand = true ↔
      (chronLt now cand ∨ chronLt cand minAllowedJsDate)) := by
  obtain ⟨hy, hm, hd⟩ := hloc
  refine ⟨?_, rfl, rfl, ?_⟩
  · unfold getLocalDateString
    rw [hy, hm, hd]
  · unfold calendarDisabled getMaxAllowedDate strGt
    rw [Bool.or_eq_true]
    have hmin : validDate minAllowedJsDate := by
      unfold validDate minAllowedJsDate
      norm_num
    have h1 := strLt_getLocalDateString now cand hvn hvc
    have h2 := strLt_getLocalDateString cand minAllowedJsDate hvc hmin
    have hminstr : minAllowedDate = getLocalDateString minAllowedJsDate := rfl
    rw [hminstr, h1, h2]

/-- Witness for C9: a 2025 local today and a candidate one day before the
fixed minimum, which the calendar rejects. -/
theorem c9_local_today_and_range_witness :
    calendarDisabled
        { localYear := 2025, localMonth := 0, localDay := 15,
          utcYear := 2025, utcMonth := 0, utcDay := 14 }
        { localYear := 2023, localMonth := 5, localDay := 11,
          utcYear := 2023, utcMonth := 5, utcDay := 11 } = true ↔
      (chronLt
          { localYear := 2025, localMonth := 0, localDay := 15,
            utcYear := 2025, utcMonth := 0, utcDay := 14 }
          { localYear := 2023, localMonth := 5, localDay := 11,
            utcYear := 2023, utcMonth := 5, utcDay := 11 } ∨
        chronLt
          { localYear := 2023, localMonth := 5, localDay := 11,
            utcYear := 2023, utcMonth := 5, utcDay := 11 }
          minAllowedJsDate) :=
  (c9_local_today_and_range
    { localYear := 2025, localMonth := 0, localDay := 15,
      utcYear := 2025, utcMonth := 0, utcDay := 14 }
    { localYear := 2025, localMonth := 0, localDay := 15,
      utcYear := 2025, utcMonth := 0, utcDay := 14 }
    { localYear := 2025, localMonth := 0, localDay := 15,
      utcYear := 2025, utcMonth := 0, utcDay := 14 }
    { localYear := 2023, localMonth := 5, localDay := 11,
      utcYear := 2023, utcMonth := 5, utcDay := 11 }
    ⟨rfl, rfl, rfl⟩
    (by unfold validDate; norm_num)
    (by unfold validDate; norm_num)).2.2.2

end ConnectionsBuddy
